import Mathlib

/-!
Verification of the SESAMME posterior-evaluation engine against its
natural-language specification.

The Python sources (sesamme/mcmc.py and sesamme/models.py) are shallowly
embedded below.  Python floats are modelled by `ℚ` wherever the code only
performs field arithmetic and comparisons, and by `ℝ` where transcendental
functions (log, sqrt, pi, real powers) appear.  Python exceptions are
modelled by `Except PyErr`; NumPy arrays by `List`.
-/

/-- Python exception kinds raised by the embedded code.  `keyError` is the
only `LookupError` subclass that occurs; `valueError` is not a
`LookupError`. -/
inductive PyErr : Type where
  | valueError (msg : String) : PyErr
  | keyError (msg : String) : PyErr
deriving DecidableEq, Repr

/-- Returns `true` exactly on the Python `LookupError` subclasses
(`KeyError`, `IndexError`); `ValueError` is not among them. -/
def PyErr.isLookupError : PyErr → Bool
  | .keyError _ => true
  | .valueError _ => false

deriving instance DecidableEq for Except

/-- The global `prior_dict` of mcmc.py: one `(low, high)` pair per axis, in
the fixed key order `age`, `met`, `ebv`, `amp`. -/
structure PriorDict (α : Type) where
  age : α × α
  met : α × α
  ebv : α × α
  amp : α × α
deriving DecidableEq, Repr

/-- mcmc.py `_check_prior_bounds` (lines 108-135): iterates the dict in
insertion order (`age`, `met`, `ebv`, `amp`) and raises `ValueError` on the
first axis whose first entry exceeds the second.  The subsequent
plausibility checks only emit warnings and never change the returned value,
so they are not modelled. -/
def _check_prior_bounds {α : Type} [LinearOrderedField α] (d : PriorDict α) :
    Except PyErr Unit :=
  if d.age.1 > d.age.2 then
    .error (.valueError "Prior boundaries are out of order for variable age")
  else if d.met.1 > d.met.2 then
    .error (.valueError "Prior boundaries are out of order for variable met")
  else if d.ebv.1 > d.ebv.2 then
    .error (.valueError "Prior boundaries are out of order for variable ebv")
  else if d.amp.1 > d.amp.2 then
    .error (.valueError "Prior boundaries are out of order for variable amp")
  else
    .ok ()

/-- mcmc.py `set_prior_bounds` (lines 81-104): overwrites all four entries
of the dictionary with the new bounds and only then runs
`_check_prior_bounds`.  The first component of the result is the dictionary
as left behind by the call, the second the normal/exceptional outcome. -/
def set_prior_bounds {α : Type} [LinearOrderedField α]
    (prior_lowbounds prior_highbounds : α × α × α × α) :
    PriorDict α × Except PyErr Unit :=
  let d : PriorDict α :=
    { age := (prior_lowbounds.1, prior_highbounds.1)
      met := (prior_lowbounds.2.1, prior_highbounds.2.1)
      ebv := (prior_lowbounds.2.2.1, prior_highbounds.2.2.1)
      amp := (prior_lowbounds.2.2.2, prior_highbounds.2.2.2) }
  (d, _check_prior_bounds d)

/-- mcmc.py `log_prior` (lines 140-169): re-validates the bounds on every
call, then returns `0` when log-age and log-metallicity lie inclusively and
E(B-V) and log-amplitude strictly within their bounds, and `-inf`
(modelled as `⊥ : WithBot α`) otherwise. -/
def log_prior {α : Type} [LinearOrderedField α] (d : PriorDict α)
    (theta : α × α × α × α) : Except PyErr (WithBot α) :=
  match _check_prior_bounds d with
  | .error e => .error e
  | .ok _ =>
    let (logt, logZ, ebv, ampl) := theta
    if d.age.1 ≤ logt ∧ logt ≤ d.age.2 ∧
       d.met.1 ≤ logZ ∧ logZ ≤ d.met.2 ∧
       d.ebv.1 < ebv ∧ ebv < d.ebv.2 ∧
       d.amp.1 < ampl ∧ ampl < d.amp.2 then
      .ok 0
    else
      .ok ⊥

/-- C2: for prior bounds with lo ≤ hi on every axis, `log_prior` returns 0
iff log-age and log-metallicity lie within their bounds inclusively and
E(B-V) and log-amplitude strictly within theirs, and negative infinity in
every other case. -/
theorem log_prior_flat_characterization (d : PriorDict ℚ) (theta : ℚ × ℚ × ℚ × ℚ)
    (h1 : d.age.1 ≤ d.age.2) (h2 : d.met.1 ≤ d.met.2)
    (h3 : d.ebv.1 ≤ d.ebv.2) (h4 : d.amp.1 ≤ d.amp.2) :
    ((d.age.1 ≤ theta.1 ∧ theta.1 ≤ d.age.2 ∧
      d.met.1 ≤ theta.2.1 ∧ theta.2.1 ≤ d.met.2 ∧
      d.ebv.1 < theta.2.2.1 ∧ theta.2.2.1 < d.ebv.2 ∧
      d.amp.1 < theta.2.2.2 ∧ theta.2.2.2 < d.amp.2) →
        log_prior d theta = .ok 0) ∧
    (¬ (d.age.1 ≤ theta.1 ∧ theta.1 ≤ d.age.2 ∧
      d.met.1 ≤ theta.2.1 ∧ theta.2.1 ≤ d.met.2 ∧
      d.ebv.1 < theta.2.2.1 ∧ theta.2.2.1 < d.ebv.2 ∧
      d.amp.1 < theta.2.2.2 ∧ theta.2.2.2 < d.amp.2) →
        log_prior d theta = .ok ⊥) := by
  obtain ⟨logt, logZ, ebv, ampl⟩ := theta
  have hc : _check_prior_bounds d = .ok () := by
    simp [_check_prior_bounds, not_lt.2 h1, not_lt.2 h2, not_lt.2 h3, not_lt.2 h4]
  constructor
  · intro h
    simp only [log_prior, hc]
    exact if_pos h
  · intro h
    simp only [log_prior, hc]
    exact if_neg h

/-- Witness for C2: a concrete in-bounds theta evaluates to 0. -/
theorem log_prior_flat_characterization_witness :
    log_prior (⟨(6, 15/2), (-3, -3/2), (1/100, 1), (-20, 1)⟩ : PriorDict ℚ)
      (7, -2, 1/5, -2) = .ok 0 :=
  (log_prior_flat_characterization ⟨(6, 15/2), (-3, -3/2), (1/100, 1), (-20, 1)⟩
    (7, -2, 1/5, -2) (by norm_num) (by norm_num) (by norm_num) (by norm_num)).1
    (by norm_num)

/-- C10: `set_prior_bounds` is not atomic on error.  When some axis has
lower bound above upper bound the call raises `ValueError`, yet the
returned dictionary already holds all four new (invalid) pairs, and every
subsequent `log_prior` call on that dictionary raises the same
`ValueError` from its per-call re-validation instead of returning a
value. -/
theorem set_prior_bounds_not_atomic (lo hi : ℚ × ℚ × ℚ × ℚ)
    (h : lo.1 > hi.1 ∨ lo.2.1 > hi.2.1 ∨ lo.2.2.1 > hi.2.2.1 ∨ lo.2.2.2 > hi.2.2.2) :
    ∃ e : PyErr,
      (set_prior_bounds lo hi).2 = .error e ∧
      (∃ m, e = .valueError m) ∧
      (set_prior_bounds lo hi).1 =
        ⟨(lo.1, hi.1), (lo.2.1, hi.2.1), (lo.2.2.1, hi.2.2.1), (lo.2.2.2, hi.2.2.2)⟩ ∧
      ∀ theta : ℚ × ℚ × ℚ × ℚ, log_prior (set_prior_bounds lo hi).1 theta = .error e := by
  have hd : (set_prior_bounds lo hi).1 =
      ⟨(lo.1, hi.1), (lo.2.1, hi.2.1), (lo.2.2.1, hi.2.2.1), (lo.2.2.2, hi.2.2.2)⟩ := rfl
  have hcheck : ∃ e : PyErr, (∃ m, e = .valueError m) ∧
      _check_prior_bounds (set_prior_bounds lo hi).1 = .error e := by
    rw [hd]
    unfold _check_prior_bounds
    by_cases c1 : lo.1 > hi.1
    · exact ⟨.valueError "Prior boundaries are out of order for variable age",
        ⟨_, rfl⟩, by simp [c1]⟩
    · by_cases c2 : lo.2.1 > hi.2.1
      · exact ⟨.valueError "Prior boundaries are out of order for variable met",
          ⟨_, rfl⟩, by simp [c1, c2]⟩
      · by_cases c3 : lo.2.2.1 > hi.2.2.1
        · exact ⟨.valueError "Prior boundaries are out of order for variable ebv",
            ⟨_, rfl⟩, by simp [c1, c2, c3]⟩
        · by_cases c4 : lo.2.2.2 > hi.2.2.2
          · exact ⟨.valueError "Prior boundaries are out of order for variable amp",
              ⟨_, rfl⟩, by simp [c1, c2, c3, c4]⟩
          · rcases h with h | h | h | h <;> simp_all
  obtain ⟨e, hm, he⟩ := hcheck
  refine ⟨e, ?_, hm, hd, ?_⟩
  · have : (set_prior_bounds lo hi).2 = _check_prior_bounds (set_prior_bounds lo hi).1 := rfl
    rw [this, he]
  · intro theta
    obtain ⟨logt, logZ, ebv, ampl⟩ := theta
    simp [log_prior, he]

/-- Witness for C10: bounds with the age axis reversed leave the invalid
dictionary in place and poison later `log_prior` calls. -/
theorem set_prior_bounds_not_atomic_witness :
    ∃ e : PyErr,
      (set_prior_bounds ((8 : ℚ), -3, 1/100, -20) (6, -3/2, 1, 1)).2 = .error e ∧
      (∃ m, e = .valueError m) ∧
      (set_prior_bounds ((8 : ℚ), -3, 1/100, -20) (6, -3/2, 1, 1)).1 =
        ⟨(8, 6), (-3, -3/2), (1/100, 1), (-20, 1)⟩ ∧
      ∀ theta : ℚ × ℚ × ℚ × ℚ,
        log_prior (set_prior_bounds ((8 : ℚ), -3, 1/100, -20) (6, -3/2, 1, 1)).1 theta =
          .error e :=
  set_prior_bounds_not_atomic (8, -3, 1/100, -20) (6, -3/2, 1, 1) (by norm_num)

/-- NumPy boolean-mask indexing `xs[mask]` (requires equal lengths at the
call sites, which the likelihood contract guarantees): keeps the entries at
mask-true positions, in order. -/
def boolIndex {α : Type} : List α → List Bool → List α
  | x :: xs, b :: bs => if b then x :: boolIndex xs bs else boolIndex xs bs
  | _, _ => []

/-- `np.dot` of two 1-D arrays: the sum of elementwise products. -/
def npdot (a b : List ℝ) : ℝ := (List.zipWith (fun u v => u * v) a b).sum

/-- mcmc.py `log_likelihood` (lines 173-202): masks the flux, model and
error arrays, forms the standardized residual vector and the scaled error
vector `sqrt(2)*sqrt(pi)*yerr[mask]`, and returns
`-0.5 * (dot(spec, spec) + log(dot(err, err)))`. -/
noncomputable def log_likelihood (y yerr y_model : List ℝ) (mask : List Bool) : ℝ :=
  let masked_spec := List.zipWith (fun u v => u / v)
    (List.zipWith (fun u v => u - v) (boolIndex y mask) (boolIndex y_model mask))
    (boolIndex yerr mask)
  let masked_err := (boolIndex yerr mask).map (fun e => Real.sqrt 2 * Real.sqrt Real.pi * e);
  -0.5 * (npdot masked_spec masked_spec + Real.log (npdot masked_err masked_err))

/-- The sum S of claim C3, built as the claim words it: the per-bin
standardized residuals `(y - y_model)/yerr`, squared, summed over the
mask-true bins. -/
noncomputable def claim_resid_sum (y yerr y_model : List ℝ) (mask : List Bool) : ℝ :=
  ((boolIndex (List.zipWith (fun u v => u / v)
      (List.zipWith (fun u v => u - v) y y_model) yerr) mask).map fun r => r ^ 2).sum

/-- The aggregate scalar T of claim C3: the dot product of
`sqrt(2)*sqrt(pi)*yerr[mask]` with itself. -/
noncomputable def claim_err_term (yerr : List ℝ) (mask : List Bool) : ℝ :=
  npdot ((boolIndex yerr mask).map fun e => Real.sqrt 2 * Real.sqrt Real.pi * e)
        ((boolIndex yerr mask).map fun e => Real.sqrt 2 * Real.sqrt Real.pi * e)

theorem boolIndex_zipWith {α β γ : Type} (f : α → β → γ) :
    ∀ (m : List Bool) (a : List α) (b : List β),
      a.length = m.length → b.length = m.length →
      boolIndex (List.zipWith f a b) m =
        List.zipWith f (boolIndex a m) (boolIndex b m)
  | [], a, b, ha, hb => by
    cases a <;> cases b <;> simp_all [boolIndex]
  | mb :: m', a, b, ha, hb => by
    cases a with
    | nil => simp at ha
    | cons x a' =>
      cases b with
      | nil => simp at hb
      | cons z b' =>
        simp only [List.length_cons, Nat.succ.injEq] at ha hb
        cases mb <;>
          simp [boolIndex, boolIndex_zipWith f m' a' b' ha hb]

theorem npdot_self_eq_sum_sq (v : List ℝ) :
    npdot v v = (v.map fun r => r ^ 2).sum := by
  induction v with
  | nil => simp [npdot]
  | cons x xs ih =>
    simp only [npdot, List.zipWith_cons_cons, List.sum_cons, List.map_cons] at *
    rw [ih, sq]

/-- C3: for equal-length arrays, `log_likelihood` equals
`-0.5 * (S + log T)` with S the sum of squared standardized residuals over
the mask-true bins and T the single aggregate dot product of
`sqrt(2)*sqrt(pi)*yerr[mask]` with itself — one combined log term for the
whole masked vector, not one per bin. -/
theorem log_likelihood_single_normalization (y yerr y_model : List ℝ) (mask : List Bool)
    (hy : y.length = mask.length) (he : yerr.length = mask.length)
    (hm : y_model.length = mask.length) :
    log_likelihood y yerr y_model mask =
      -0.5 * (claim_resid_sum y yerr y_model mask +
        Real.log (claim_err_term yerr mask)) := by
  have hsub : (List.zipWith (fun u v => u - v) y y_model).length = mask.length := by
    simp [List.length_zipWith, hy, hm]
  have h1 : boolIndex (List.zipWith (fun u v => u / v)
      (List.zipWith (fun u v => u - v) y y_model) yerr) mask =
      List.zipWith (fun u v => u / v)
        (boolIndex (List.zipWith (fun u v => u - v) y y_model) mask)
        (boolIndex yerr mask) :=
    boolIndex_zipWith _ mask _ _ hsub he
  have h2 : boolIndex (List.zipWith (fun u v => u - v) y y_model) mask =
      List.zipWith (fun u v => u - v) (boolIndex y mask) (boolIndex y_model mask) :=
    boolIndex_zipWith _ mask _ _ hy hm
  simp only [log_likelihood, claim_resid_sum, claim_err_term, h1, h2,
    npdot_self_eq_sum_sq]

/-- Witness for C3 at concrete equal-length arrays. -/
theorem log_likelihood_single_normalization_witness :
    log_likelihood [1, 2] [1, 3] [0, 1] [true, false] =
      -0.5 * (claim_resid_sum [1, 2] [1, 3] [0, 1] [true, false] +
        Real.log (claim_err_term [1, 3] [true, false])) :=
  log_likelihood_single_normalization [1, 2] [1, 3] [0, 1] [true, false] rfl rfl rfl

/-- mcmc.py `log_posterior` (lines 206-242).  The wavelength array, FITS
model cube, ionization table and nebular flag enter only through the
model-construction call `models.get_model(theta, x, model_cube, ion_table,
add_nebular)`, so that step is passed in as the function parameter
`get_model` (the call-counting substitute of the specification); the
second component of the result counts how often it was invoked.  The
source calls it on line 234, before `log_prior` is consulted. -/
noncomputable def log_posterior (get_model : (ℝ × ℝ × ℝ × ℝ) → List ℝ → List ℝ)
    (d : PriorDict ℝ) (theta : ℝ × ℝ × ℝ × ℝ) (x y yerr : List ℝ)
    (mask : List Bool) : Except PyErr (WithBot ℝ) × ℕ :=
  let y_model := get_model theta x
  match log_prior d theta with
  | .error e => (.error e, 1)
  | .ok lp =>
    if lp = (⊥ : WithBot ℝ) then (.ok ⊥, 1)
    else (.ok (lp + ↑(log_likelihood y yerr y_model mask)), 1)

/-- Counterexample to C1: at a concrete theta whose log-prior is negative
infinity, the model-construction step is nonetheless invoked (invocation
count 1, not 0), because the source builds `y_model` before consulting the
prior. -/
theorem log_posterior_shortcircuit_cex :
    log_prior (⟨(0, 1), (0, 1), (0, 1), (0, 1)⟩ : PriorDict ℝ) (5, 2, 3, 4) = .ok ⊥ ∧
    (log_posterior (fun _ _ => [0]) ⟨(0, 1), (0, 1), (0, 1), (0, 1)⟩
      (5, 2, 3, 4) [] [] [] []).2 = 1 := by
  have h : log_prior (⟨(0, 1), (0, 1), (0, 1), (0, 1)⟩ : PriorDict ℝ)
      ((5 : ℝ), 2, 3, 4) = .ok ⊥ := by
    norm_num [log_prior, _check_prior_bounds]
  exact ⟨h, by simp [log_posterior, h]⟩

/-- C1 (amended): for every theta whose log-prior is negative infinity,
`log_posterior` still returns negative infinity and does not raise, but
`get_model` IS invoked — exactly once, before the prior check — so the
model-construction step does run for out-of-bounds proposals. -/
theorem log_posterior_out_of_bounds (get_model : (ℝ × ℝ × ℝ × ℝ) → List ℝ → List ℝ)
    (d : PriorDict ℝ) (theta : ℝ × ℝ × ℝ × ℝ) (x y yerr : List ℝ) (mask : List Bool)
    (h : log_prior d theta = .ok ⊥) :
    log_posterior get_model d theta x y yerr mask = (.ok ⊥, 1) := by
  simp [log_posterior, h]

/-- Witness for C1 (amended) at a concrete out-of-bounds theta. -/
theorem log_posterior_out_of_bounds_witness :
    log_posterior (fun _ _ => [0]) ⟨(0, 1), (0, 1), (0, 1), (0, 1)⟩
      ((5 : ℝ), 2, 3, 4) [1] [1] [1] [true] = (.ok ⊥, 1) :=
  log_posterior_out_of_bounds _ _ _ _ _ _ _
    (by norm_num [log_prior, _check_prior_bounds])

/-- NumPy elementwise multiplication of two 1-D arrays with broadcasting:
equal lengths multiply pairwise, a length-1 operand broadcasts against the
other, and every other length combination raises `ValueError`. -/
def broadcastMul (a b : List ℝ) : Except PyErr (List ℝ) :=
  if a.length = b.length then .ok (List.zipWith (fun u v => u * v) a b)
  else
    match a, b with
    | a, [s] => .ok (a.map (fun u => u * s))
    | [s], b => .ok (b.map (fun u => s * u))
    | _, _ => .error (.valueError "operands could not be broadcast together")

/-- Modelled from the spec: the per-curve shape functions of the external
`extinction` and `dust_extinction` libraries (the wavelength dependence
A(lambda)/A_V of each named curve, and the fixed R_V constants of the G03
averages).  The SESAMME code only scales these shapes by an amplitude
proportional to E(B-V), so they are kept abstract. -/
structure ExtShapes where
  ccm89u : ℝ → ℝ → ℝ
  f99u : ℝ → ℝ → ℝ
  od94u : ℝ → ℝ → ℝ
  fm07u : ℝ → ℝ
  cal00u : ℝ → ℝ → ℝ
  g23axav : ℝ → ℝ → ℝ
  lmc_axav : ℝ → ℝ
  smc_axav : ℝ → ℝ
  lmc_Rv : ℝ
  smc_Rv : ℝ

/-- Modelled from the spec: `extinction.ccm89(x, a_v, r_v)` returns the
extinction in magnitudes, linear in `a_v`. -/
def ccm89 (sh : ExtShapes) (x : List ℝ) (a_v r_v : ℝ) : List ℝ :=
  x.map (fun w => a_v * sh.ccm89u w r_v)

/-- Modelled from the spec: `extinction.fitzpatrick99(x, a_v, r_v)`. -/
def fitzpatrick99 (sh : ExtShapes) (x : List ℝ) (a_v r_v : ℝ) : List ℝ :=
  x.map (fun w => a_v * sh.f99u w r_v)

/-- Modelled from the spec: `extinction.odonnell94(x, a_v, r_v)`. -/
def odonnell94 (sh : ExtShapes) (x : List ℝ) (a_v r_v : ℝ) : List ℝ :=
  x.map (fun w => a_v * sh.od94u w r_v)

/-- Modelled from the spec: `extinction.fm07(x, a_v)`. -/
def fm07 (sh : ExtShapes) (x : List ℝ) (a_v : ℝ) : List ℝ :=
  x.map (fun w => a_v * sh.fm07u w)

/-- Modelled from the spec: `extinction.calzetti00(x, a_v, r_v)`. -/
def calzetti00 (sh : ExtShapes) (x : List ℝ) (a_v r_v : ℝ) : List ℝ :=
  x.map (fun w => a_v * sh.cal00u w r_v)

/-- Modelled from the spec: `extinction.apply(mag, flux)` multiplies the
flux by the transmission `10^(-0.4 * mag)`, elementwise. -/
noncomputable def ext_apply (mag flux : List ℝ) : Except PyErr (List ℝ) :=
  broadcastMul flux (mag.map (fun m => (10 : ℝ) ^ (-(0.4 * m))))

/-- Modelled from the spec: `dust_extinction` `extinguish(x, Av)` returns
the multiplicative transmission `10^(-0.4 * Av * axav(x))`. -/
noncomputable def extinguish (axav : ℝ → ℝ) (x : List ℝ) (a_v : ℝ) : List ℝ :=
  x.map (fun w => (10 : ℝ) ^ (-(0.4 * (a_v * axav w))))

/-- The eight extinction-curve names accepted by models.py (lines 229-230
and 265-266). -/
def valid_ext_laws : List String :=
  ["CCM", "Fitzpatrick99", "ODonnell", "FitzMassa07", "Gordon23",
   "Calzetti", "SMC", "LMC"]

/-- The `ValueError` raised for an unrecognized curve name.  models.py
builds the identical message in `set_ext_law` and `apply_ext_law`
(duplicated string literal; here abbreviated without the quoted
accepted-values list). -/
def ext_law_error (name : String) : PyErr :=
  .valueError (name ++ " is not a valid choice of extinction law.")

/-- models.py `set_ext_law` (lines 210-236): validates the name against the
eight known curves, raising `ValueError` otherwise, and on success stores
it as the active curve (returned here; the confirmation print is a pure
side effect). -/
def set_ext_law (ext_curve : String) : Except PyErr String :=
  if ext_curve ∉ valid_ext_laws then .error (ext_law_error ext_curve)
  else .ok ext_curve

/-- models.py `apply_ext_law` (lines 240-297): re-validates the active
selection with the same error as `set_ext_law`, then dispatches over the
eight curves.  Milky-Way-like curves use `a_v = ebv*3.1, r_v = 3.1`,
Calzetti uses `4.05`, Gordon23 uses `G23(Rv=3.1)` with `Av = ebv*Rv`, and
the G03 LMC/SMC averages use their fixed `Rv` with `Av = ebv*Rv`.  The
final `else` corresponds to the last `elif use_ext_law == "SMC"` branch,
which is exhaustive once validation has passed. -/
noncomputable def apply_ext_law (sh : ExtShapes) (use_ext_law : String)
    (x : List ℝ) (ebv : ℝ) (y_model : List ℝ) : Except PyErr (List ℝ) :=
  if use_ext_law ∉ valid_ext_laws then .error (ext_law_error use_ext_law)
  else if use_ext_law = "CCM" then ext_apply (ccm89 sh x (ebv * 3.1) 3.1) y_model
  else if use_ext_law = "Fitzpatrick99" then
    ext_apply (fitzpatrick99 sh x (ebv * 3.1) 3.1) y_model
  else if use_ext_law = "ODonnell" then
    ext_apply (odonnell94 sh x (ebv * 3.1) 3.1) y_model
  else if use_ext_law = "FitzMassa07" then ext_apply (fm07 sh x (ebv * 3.1)) y_model
  else if use_ext_law = "Calzetti" then
    ext_apply (calzetti00 sh x (ebv * 4.05) 4.05) y_model
  else if use_ext_law = "Gordon23" then
    broadcastMul y_model (extinguish (sh.g23axav 3.1) x (ebv * 3.1))
  else if use_ext_law = "LMC" then
    broadcastMul y_model (extinguish sh.lmc_axav x (ebv * sh.lmc_Rv))
  else
    broadcastMul y_model (extinguish sh.smc_axav x (ebv * sh.smc_Rv))

theorem zipWith_mul_map_one {α : Type} (f : α → ℝ) :
    ∀ (y : List ℝ) (x : List α), x.length = y.length → (∀ w ∈ x, f w = 1) →
      List.zipWith (fun u v => u * v) y (x.map f) = y
  | [], [], _, _ => rfl
  | [], w :: xs, h, _ => by simp at h
  | v :: ys, [], h, _ => by simp at h
  | v :: ys, w :: xs, h, hf => by
    simp only [List.length_cons, Nat.succ.injEq] at h
    have h1 : f w = 1 := hf w (List.mem_cons_self w xs)
    have h2 : ∀ u ∈ xs, f u = 1 := fun u hu => hf u (List.mem_cons_of_mem w hu)
    simp [h1, zipWith_mul_map_one f ys xs h h2]

theorem broadcastMul_map_one {α : Type} (y : List ℝ) (x : List α) (f : α → ℝ)
    (h : x.length = y.length) (hf : ∀ w ∈ x, f w = 1) :
    broadcastMul y (x.map f) = .ok y := by
  have hlen : y.length = (x.map f).length := by simp [h]
  simp only [broadcastMul, if_pos hlen]
  rw [zipWith_mul_map_one f y x h hf]

/-- C8: every one of the 8 extinction curves, applied with E(B-V) = 0 to a
flux array of matching length, returns the input flux unchanged (exactly,
hence within any floating tolerance). -/
theorem apply_ext_law_zero_ebv (sh : ExtShapes) (law : String)
    (hlaw : law ∈ valid_ext_laws) (x y : List ℝ) (hxy : x.length = y.length) :
    apply_ext_law sh law x 0 y = .ok y := by
  have hext : ∀ (g : ℝ → ℝ) (c : ℝ),
      ext_apply (x.map (fun w => (0 * c) * g w)) y = .ok y := by
    intro g c
    unfold ext_apply
    rw [List.map_map]
    exact broadcastMul_map_one y x _ hxy (by intro w hw; norm_num)
  fin_cases hlaw
  · show ext_apply (ccm89 sh x (0 * 3.1) 3.1) y = .ok y
    exact hext (fun w => sh.ccm89u w 3.1) 3.1
  · show ext_apply (fitzpatrick99 sh x (0 * 3.1) 3.1) y = .ok y
    exact hext (fun w => sh.f99u w 3.1) 3.1
  · show ext_apply (odonnell94 sh x (0 * 3.1) 3.1) y = .ok y
    exact hext (fun w => sh.od94u w 3.1) 3.1
  · show ext_apply (fm07 sh x (0 * 3.1)) y = .ok y
    exact hext (fun w => sh.fm07u w) 3.1
  · show broadcastMul y (extinguish (sh.g23axav 3.1) x (0 * 3.1)) = .ok y
    unfold extinguish
    exact broadcastMul_map_one y x _ hxy (by intro w hw; norm_num)
  · show ext_apply (calzetti00 sh x (0 * 4.05) 4.05) y = .ok y
    exact hext (fun w => sh.cal00u w 4.05) 4.05
  · show broadcastMul y (extinguish sh.smc_axav x (0 * sh.smc_Rv)) = .ok y
    unfold extinguish
    exact broadcastMul_map_one y x _ hxy (by intro w hw; norm_num)
  · show broadcastMul y (extinguish sh.lmc_axav x (0 * sh.lmc_Rv)) = .ok y
    unfold extinguish
    exact broadcastMul_map_one y x _ hxy (by intro w hw; norm_num)

/-- Witness for C8 with a concrete shape library, curve and arrays. -/
theorem apply_ext_law_zero_ebv_witness :
    apply_ext_law ⟨fun _ _ => 1, fun _ _ => 1, fun _ _ => 1, fun _ => 1,
      fun _ _ => 1, fun _ _ => 1, fun _ => 1, fun _ => 1, 1, 1⟩
      "CCM" [5] 0 [7] = .ok [7] :=
  apply_ext_law_zero_ebv _ "CCM" (by decide) [5] [7] rfl

/-- C9: for every name outside the eight enumerated curves, `set_ext_law`
raises `ValueError`, and `apply_ext_law` under the same invalid active
selection re-validates and fails with the identical error without applying
any reddening. -/
theorem invalid_ext_law_rejected (name : String) (h : name ∉ valid_ext_laws) :
    set_ext_law name = .error (ext_law_error name) ∧
    ∀ (sh : ExtShapes) (x : List ℝ) (ebv : ℝ) (y : List ℝ),
      apply_ext_law sh name x ebv y = .error (ext_law_error name) := by
  refine ⟨?_, ?_⟩
  · simp [set_ext_law, h]
  · intro sh x ebv y
    simp [apply_ext_law, h]

/-- Witness for C9 at the spec example name. -/
theorem invalid_ext_law_rejected_witness :
    set_ext_law "NotARealCurve" = .error (ext_law_error "NotARealCurve") ∧
    ∀ (sh : ExtShapes) (x : List ℝ) (ebv : ℝ) (y : List ℝ),
      apply_ext_law sh "NotARealCurve" x ebv y =
        .error (ext_law_error "NotARealCurve") :=
  invalid_ext_law_rejected "NotARealCurve" (by decide)

/-- The Python built-in `min(items, key=f)`: a left fold that replaces the
running best only on a strictly smaller key, so ties keep the earlier
element; `none` on an empty sequence (where Python raises). -/
def minByFirst {α β : Type} [LinearOrder β] (f : α → β) : List α → Option α
  | [] => none
  | h :: t => some (t.foldl (fun best p => if f p < f best then p else best) h)

theorem minByFirst_isSome {α β : Type} [LinearOrder β] (f : α → β) (l : List α)
    (hl : l ≠ []) : ∃ a, minByFirst f l = some a := by
  cases l with
  | nil => exact absurd rfl hl
  | cons h t => exact ⟨_, rfl⟩

theorem foldl_minBy_decomp {α β : Type} [LinearOrder β] (f : α → β) :
    ∀ (t : List α) (b : α),
      ∃ l₁ l₂,
        b :: t = l₁ ++ (t.foldl (fun best p => if f p < f best then p else best) b) :: l₂ ∧
        (∀ y ∈ l₁, f (t.foldl (fun best p => if f p < f best then p else best) b) < f y) ∧
        (∀ y ∈ l₂, f (t.foldl (fun best p => if f p < f best then p else best) b) ≤ f y)
  | [], b => ⟨[], [], rfl, by simp, by simp⟩
  | a :: t, b => by
    by_cases hab : f a < f b
    · have hstep : (a :: t).foldl (fun best p => if f p < f best then p else best) b =
          t.foldl (fun best p => if f p < f best then p else best) a := by
        simp [List.foldl_cons, if_pos hab]
      obtain ⟨l₁, l₂, hdec, hpre, hpost⟩ := foldl_minBy_decomp f t a
      have hra : f (t.foldl (fun best p => if f p < f best then p else best) a) ≤ f a := by
        cases l₁ with
        | nil =>
          simp only [List.nil_append, List.cons.injEq] at hdec
          rw [← hdec.1]
        | cons z zs =>
          simp only [List.cons_append, List.cons.injEq] at hdec
          exact le_of_lt (hdec.1 ▸ hpre z (List.mem_cons_self z zs))
      refine ⟨b :: l₁, l₂, ?_, ?_, ?_⟩
      · rw [hstep, List.cons_append, ← hdec]
      · intro y hy
        rcases List.mem_cons.1 hy with rfl | hy
        · rw [hstep]; exact lt_of_le_of_lt hra hab
        · rw [hstep]; exact hpre y hy
      · intro y hy
        rw [hstep]; exact hpost y hy
    · have hstep : (a :: t).foldl (fun best p => if f p < f best then p else best) b =
          t.foldl (fun best p => if f p < f best then p else best) b := by
        simp [List.foldl_cons, if_neg hab]
      have hba : f b ≤ f a := le_of_not_lt hab
      obtain ⟨l₁, l₂, hdec, hpre, hpost⟩ := foldl_minBy_decomp f t b
      cases l₁ with
      | nil =>
        simp only [List.nil_append, List.cons.injEq] at hdec
        refine ⟨[], a :: t, ?_, by simp, ?_⟩
        · rw [hstep, List.nil_append, ← hdec.1]
        · intro y hy
          rcases List.mem_cons.1 hy with rfl | hy
          · rw [hstep, ← hdec.1]; exact hba
          · rw [hstep]
            exact hpost y (hdec.2 ▸ hy)
      | cons z zs =>
        simp only [List.cons_append, List.cons.injEq] at hdec
        refine ⟨b :: a :: zs, l₂, ?_, ?_, ?_⟩
        · rw [hstep]
          conv_lhs => rw [hdec.2]
          simp [List.cons_append]
        · intro y hy
          rcases List.mem_cons.1 hy with rfl | hy
          · rw [hstep]
            exact hdec.1 ▸ hpre z (List.mem_cons_self z zs)
          · rcases List.mem_cons.1 hy with rfl | hy
            · rw [hstep]
              exact lt_of_lt_of_le (hdec.1 ▸ hpre z (List.mem_cons_self z zs)) hba
            · rw [hstep]
              exact hpre y (List.mem_cons_of_mem z hy)
        · intro y hy
          rw [hstep]; exact hpost y hy

/-- The first-minimum characterization of `minByFirst`: on a nonempty list
it returns an element; everything strictly before it in the list has a
strictly larger key (first-wins tie-break) and everything after it has a
key at least as large. -/
theorem minByFirst_spec {α β : Type} [LinearOrder β] (f : α → β) (l : List α)
    (hl : l ≠ []) :
    ∃ r l₁ l₂, minByFirst f l = some r ∧ l = l₁ ++ r :: l₂ ∧
      (∀ y ∈ l₁, f r < f y) ∧ (∀ y ∈ l₂, f r ≤ f y) := by
  cases l with
  | nil => exact absurd rfl hl
  | cons b t =>
    obtain ⟨l₁, l₂, hdec, hpre, hpost⟩ := foldl_minBy_decomp f t b
    exact ⟨_, l₁, l₂, rfl, hdec, hpre, hpost⟩

/-- models.py `_nearest_age` (lines 127-147): a linear scan over the age
dictionary in ingestion order, minimizing `abs(logt - value)` with the
Python `min` first-wins tie-break. -/
def _nearest_age (age_dict : List (String × ℚ)) (logt : ℚ) : Option (String × ℚ) :=
  minByFirst (fun p => |logt - p.2|) age_dict

/-- models.py `_nearest_metallicity` (lines 149-171): exponentiates the
input to `Z = 10**logZ` and scans the metallicity dictionary in ingestion
order, minimizing `abs(Z - value)` with the first-wins tie-break. -/
noncomputable def _nearest_metallicity (metal_dict : List (String × ℚ)) (logZ : ℝ) :
    Option (String × ℚ) :=
  minByFirst (fun p => |(10 : ℝ) ^ logZ - (p.2 : ℝ)|) metal_dict

/-- C6: both grid-snapping scans return the entry minimizing absolute
distance (age in log space, metallicity after exponentiating logZ to
linear Z), resolving ties to the first entry in ingestion order; on the
spec example grid, 6.2 snaps to 6.0 and the equidistant 6.75 snaps to the
first-ingested 6.5. -/
theorem nearest_grid_point_first_min (age_dict : List (String × ℚ)) (logt : ℚ)
    (metal_dict : List (String × ℚ)) (logZ : ℝ)
    (ha : age_dict ≠ []) (hm : metal_dict ≠ []) :
    (∃ p l₁ l₂, _nearest_age age_dict logt = some p ∧ age_dict = l₁ ++ p :: l₂ ∧
      (∀ q ∈ l₁, |logt - p.2| < |logt - q.2|) ∧
      (∀ q ∈ l₂, |logt - p.2| ≤ |logt - q.2|)) ∧
    (∃ p l₁ l₂, _nearest_metallicity metal_dict logZ = some p ∧
      metal_dict = l₁ ++ p :: l₂ ∧
      (∀ q ∈ l₁, |(10 : ℝ) ^ logZ - (p.2 : ℝ)| < |(10 : ℝ) ^ logZ - (q.2 : ℝ)|) ∧
      (∀ q ∈ l₂, |(10 : ℝ) ^ logZ - (p.2 : ℝ)| ≤ |(10 : ℝ) ^ logZ - (q.2 : ℝ)|)) ∧
    _nearest_age [("6.0", 6), ("6.5", 13/2), ("7.0", 7)] (31/5) = some ("6.0", 6) ∧
    _nearest_age [("6.0", 6), ("6.5", 13/2), ("7.0", 7)] (27/4) = some ("6.5", 13/2) := by
  have hex1 : _nearest_age [("6.0", 6), ("6.5", 13/2), ("7.0", 7)] (31/5) =
      some ("6.0", 6) := by
    norm_num [_nearest_age, minByFirst, abs]
  have hex2 : _nearest_age [("6.0", 6), ("6.5", 13/2), ("7.0", 7)] (27/4) =
      some ("6.5", 13/2) := by
    norm_num [_nearest_age, minByFirst, abs]
  obtain ⟨r, l₁, l₂, h1, h2, h3, h4⟩ :=
    minByFirst_spec (fun p : String × ℚ => |logt - p.2|) age_dict ha
  obtain ⟨s, m₁, m₂, g1, g2, g3, g4⟩ :=
    minByFirst_spec (fun p : String × ℚ => |(10 : ℝ) ^ logZ - (p.2 : ℝ)|) metal_dict hm
  exact ⟨⟨r, l₁, l₂, h1, h2, h3, h4⟩, ⟨s, m₁, m₂, g1, g2, g3, g4⟩, hex1, hex2⟩

/-- Witness for C6 on the spec example age grid (at the 6.75 tie) and a
singleton metallicity grid. -/
theorem nearest_grid_point_first_min_witness :
    (∃ p l₁ l₂, _nearest_age [("6.0", 6), ("6.5", 13/2), ("7.0", 7)] (27/4) = some p ∧
      [("6.0", 6), ("6.5", 13/2), ("7.0", 7)] = l₁ ++ p :: l₂ ∧
      (∀ q ∈ l₁, |(27/4 : ℚ) - p.2| < |(27/4 : ℚ) - q.2|) ∧
      (∀ q ∈ l₂, |(27/4 : ℚ) - p.2| ≤ |(27/4 : ℚ) - q.2|)) ∧
    (∃ p l₁ l₂, _nearest_metallicity [("Z014", 7/500)] 0 = some p ∧
      [("Z014", 7/500)] = l₁ ++ p :: l₂ ∧
      (∀ q ∈ l₁, |(10 : ℝ) ^ (0 : ℝ) - (p.2 : ℝ)| < |(10 : ℝ) ^ (0 : ℝ) - (q.2 : ℝ)|) ∧
      (∀ q ∈ l₂, |(10 : ℝ) ^ (0 : ℝ) - (p.2 : ℝ)| ≤ |(10 : ℝ) ^ (0 : ℝ) - (q.2 : ℝ)|)) ∧
    _nearest_age [("6.0", 6), ("6.5", 13/2), ("7.0", 7)] (31/5) = some ("6.0", 6) ∧
    _nearest_age [("6.0", 6), ("6.5", 13/2), ("7.0", 7)] (27/4) = some ("6.5", 13/2) :=
  nearest_grid_point_first_min [("6.0", 6), ("6.5", 13/2), ("7.0", 7)] (27/4)
    [("Z014", 7/500)] 0 (by simp) (by simp)

/-- models.py `get_mask` helper: `x[np.abs(x - v).argmin()]`, the actual
wavelength value nearest to the requested `v`.  Since `np.argmin` returns
the first minimizing index, this is the first element of `x` minimizing
`|t - v|`. -/
def nearestValue (x : List ℚ) (v : ℚ) : Option ℚ :=
  minByFirst (fun t => |t - v|) x

/-- One iteration of the window loop of models.py `get_mask` (lines
198-204): resolve the window edges to the nearest values present in `x`
and zero the mask on every bin with `windowmin <= x[i] <= windowmax`;
`none` models the `ValueError` numpy raises for `argmin` of an empty
array. -/
def mask_step (x : List ℚ) (mask : List Bool) (w : ℚ × ℚ) : Option (List Bool) :=
  match nearestValue x w.1, nearestValue x w.2 with
  | some windowmin, some windowmax =>
    some (List.zipWith (fun xi m => if windowmin ≤ xi ∧ xi ≤ windowmax then false else m)
      x mask)
  | _, _ => none

/-- models.py `get_mask` (lines 175-206): start from an all-true mask sized
to `x` and run the window loop. -/
def get_mask (windowlist : List (ℚ × ℚ)) (x : List ℚ) : Option (List Bool) :=
  windowlist.foldlM (mask_step x) (x.map (fun _ => true))

/-- Whether bin value `xi` falls inside window `w` after resolving both
edges to the nearest values present in `x`. -/
def inWinB (x : List ℚ) (w : ℚ × ℚ) (xi : ℚ) : Bool :=
  match nearestValue x w.1, nearestValue x w.2 with
  | some windowmin, some windowmax => decide (windowmin ≤ xi ∧ xi ≤ windowmax)
  | _, _ => false

theorem zipWith_self_map {α β γ : Type} (h : α → β → γ) (g : α → β) :
    ∀ x : List α, List.zipWith h x (x.map g) = x.map (fun a => h a (g a))
  | [] => rfl
  | a :: t => by
    simp only [List.map_cons, List.zipWith_cons_cons, zipWith_self_map h g t]

theorem perm_any_eq {α : Type} (p : α → Bool) {l l' : List α} (h : l.Perm l') :
    l.any p = l'.any p := by
  by_cases hb : l.any p = true
  · rw [hb]
    obtain ⟨a, ha, hp⟩ := List.any_eq_true.1 hb
    exact (List.any_eq_true.2 ⟨a, h.mem_iff.1 ha, hp⟩).symm
  · have hb' : l'.any p ≠ true := by
      intro hc
      obtain ⟨a, ha, hp⟩ := List.any_eq_true.1 hc
      exact hb (List.any_eq_true.2 ⟨a, h.mem_iff.2 ha, hp⟩)
    have h1 : l.any p = false := Bool.eq_false_iff.2 hb
    have h2 : l'.any p = false := Bool.eq_false_iff.2 hb'
    rw [h1, h2]

theorem get_mask_go (x : List ℚ) (hx : x ≠ []) :
    ∀ (wl : List (ℚ × ℚ)) (g : ℚ → Bool),
      List.foldlM (mask_step x) (x.map g) wl =
        some (x.map (fun xi => g xi && !(wl.any (fun w => inWinB x w xi)))) := by
  intro wl
  induction wl with
  | nil =>
    intro g
    simp [List.foldlM_nil]
  | cons w ws ih =>
    intro g
    obtain ⟨lo, hlo⟩ := minByFirst_isSome (fun t => |t - w.1|) x hx
    obtain ⟨hi, hhi⟩ := minByFirst_isSome (fun t => |t - w.2|) x hx
    have hstep0 : mask_step x (x.map g) w =
        some (List.zipWith (fun xi m => if lo ≤ xi ∧ xi ≤ hi then false else m)
          x (x.map g)) := by
      unfold mask_step nearestValue
      rw [hlo, hhi]
    have hstep : mask_step x (x.map g) w =
        some (x.map (fun xi => if lo ≤ xi ∧ xi ≤ hi then false else g xi)) := by
      rw [hstep0,
        zipWith_self_map (fun xi m => if lo ≤ xi ∧ xi ≤ hi then false else m) g x]
    have hmaps : ∀ xi : ℚ,
        ((if lo ≤ xi ∧ xi ≤ hi then false else g xi) &&
          !(ws.any (fun w' => inWinB x w' xi))) =
        (g xi && !((w :: ws).any (fun w' => inWinB x w' xi))) := by
      intro xi
      have hwin : inWinB x w xi = decide (lo ≤ xi ∧ xi ≤ hi) := by
        simp only [inWinB, nearestValue]
        rw [hlo, hhi]
      rw [List.any_cons, hwin]
      by_cases hc : lo ≤ xi ∧ xi ≤ hi
      · simp [hc]
      · simp [hc]
    calc List.foldlM (mask_step x) (x.map g) (w :: ws)
        = mask_step x (x.map g) w >>= fun b => List.foldlM (mask_step x) b ws := by
          rw [List.foldlM_cons]
      _ = List.foldlM (mask_step x)
            (x.map (fun xi => if lo ≤ xi ∧ xi ≤ hi then false else g xi)) ws := by
          rw [hstep]; rfl
      _ = some (x.map (fun xi => (if lo ≤ xi ∧ xi ≤ hi then false else g xi) &&
            !(ws.any (fun w' => inWinB x w' xi)))) := ih _
      _ = some (x.map (fun xi => g xi && !((w :: ws).any (fun w' => inWinB x w' xi)))) := by
          rw [funext hmaps]

/-- C7: `get_mask` equals the all-true mask with every bin zeroed whose
wavelength lies between the resolved nearest-in-array window edges of some
window (a union of exclusions, so window order is irrelevant), and on the
spec example it masks exactly the three interior bins. -/
theorem get_mask_union_of_exclusions (wl wl' : List (ℚ × ℚ)) (x : List ℚ)
    (hperm : wl.Perm wl') (hx : x ≠ []) :
    get_mask wl x = some (x.map (fun xi => !(wl.any (fun w => inWinB x w xi)))) ∧
    get_mask wl' x = get_mask wl x ∧
    get_mask [(5000, 5010)] [4990, 5000, 5005, 5010, 5020] =
      some [true, false, false, false, true] := by
  have hmain : ∀ ws : List (ℚ × ℚ), get_mask ws x =
      some (x.map (fun xi => !(ws.any (fun w => inWinB x w xi)))) := by
    intro ws
    unfold get_mask
    rw [get_mask_go x hx ws (fun _ => true)]
    simp
  refine ⟨hmain wl, ?_, ?_⟩
  · rw [hmain wl, hmain wl']
    have : ∀ xi : ℚ, (!(wl'.any (fun w => inWinB x w xi))) =
        (!(wl.any (fun w => inWinB x w xi))) := by
      intro xi
      rw [perm_any_eq (fun w => inWinB x w xi) hperm]
    rw [funext this]
  · norm_num [get_mask, List.foldlM, mask_step, nearestValue, minByFirst, abs]

/-- Witness for C7 on the spec example window and wavelength array. -/
theorem get_mask_union_of_exclusions_witness :
    get_mask [(5000, 5010)] [4990, 5000, 5005, 5010, 5020] =
      some ([4990, 5000, 5005, 5010, 5020].map
        (fun xi => !([((5000 : ℚ), (5010 : ℚ))].any
          (fun w => inWinB [4990, 5000, 5005, 5010, 5020] w xi)))) ∧
    get_mask [(5000, 5010)] [4990, 5000, 5005, 5010, 5020] =
      get_mask [(5000, 5010)] [4990, 5000, 5005, 5010, 5020] ∧
    get_mask [(5000, 5010)] [4990, 5000, 5005, 5010, 5020] =
      some [true, false, false, false, true] :=
  get_mask_union_of_exclusions [(5000, 5010)] [(5000, 5010)]
    [4990, 5000, 5005, 5010, 5020] (List.Perm.refl _) (by simp)

/-- Python `str.split("em")` on a character list: non-overlapping
leftmost-first splitting on the two-character separator, keeping empty
parts (so the result has one more part than there are occurrences). -/
def splitOnEm : List Char → List (List Char)
  | [] => [[]]
  | [c] => [[c]]
  | c :: m :: cs =>
    if c = 'e' ∧ m = 'm' then [] :: splitOnEm cs
    else
      match splitOnEm (m :: cs) with
      | hd :: t => (c :: hd) :: t
      | [] => [[c]]

/-- Python `str.split(s0)` for a single-character separator. -/
def splitOnChar (s0 : Char) : List Char → List (List Char)
  | [] => [[]]
  | c :: cs =>
    if c = s0 then [] :: splitOnChar s0 cs
    else
      match splitOnChar s0 cs with
      | hd :: t => (c :: hd) :: t
      | [] => [[c]]

/-- The ASCII whitespace accepted (and stripped) by Python `float`. -/
def pyWs (c : Char) : Bool :=
  c == ' ' || c == '\t' || c == '\n' || c == '\r' || c == '\x0b' || c == '\x0c'

/-- Whether a character list starts with a decimal digit. -/
def headIsDigit : List Char → Bool
  | d :: _ => d.isDigit
  | [] => false

/-- A run of decimal digits with PEP-515 underscores (every underscore
must sit between two digits), accumulating the value and the digit count
and returning the unconsumed rest. -/
def digitsAux : List Char → ℕ → ℕ → ℕ × ℕ × List Char
  | [], acc, n => (acc, n, [])
  | c :: cs, acc, n =>
    if c.isDigit then digitsAux cs (10 * acc + (c.toNat - 48)) (n + 1)
    else if c = '_' ∧ headIsDigit cs then digitsAux cs acc n
    else (acc, n, c :: cs)

/-- A nonempty digit run: fails unless the first character is a digit. -/
def parseDigits : List Char → Option (ℕ × ℕ × List Char)
  | c :: cs => if c.isDigit then some (digitsAux cs (c.toNat - 48) 1) else none
  | [] => none

/-- The unsigned mantissa of a Python float literal:
`digits [. digits?] | . digits`, as a rational with the unconsumed rest. -/
def parseUnsigned (l : List Char) : Option (ℚ × List Char) :=
  match parseDigits l with
  | some (ip, _, rest) =>
    match rest with
    | '.' :: rest2 =>
      match parseDigits rest2 with
      | some (fp, fn, rest3) => some ((ip : ℚ) + (fp : ℚ) / 10 ^ fn, rest3)
      | none => some ((ip : ℚ), rest2)
    | _ => some ((ip : ℚ), rest)
  | none =>
    match l with
    | '.' :: rest2 =>
      match parseDigits rest2 with
      | some (fp, fn, rest3) => some ((fp : ℚ) / 10 ^ fn, rest3)
      | none => none
    | _ => none

/-- The optional exponent part `[eE][+-]?digits` of a Python float
literal; absent exponent contributes 0 and consumes nothing. -/
def parseExp (l : List Char) : Option (ℤ × List Char) :=
  match l with
  | c :: rest =>
    if c = 'e' ∨ c = 'E' then
      match rest with
      | s :: rest2 =>
        if s = '+' then
          match parseDigits rest2 with
          | some (v, _, r) => some ((v : ℤ), r)
          | none => none
        else if s = '-' then
          match parseDigits rest2 with
          | some (v, _, r) => some (-(v : ℤ), r)
          | none => none
        else
          match parseDigits rest with
          | some (v, _, r) => some ((v : ℤ), r)
          | none => none
      | [] => none
    else some (0, l)
  | [] => some (0, [])

/-- The optional sign of a Python float literal, with the sign factor and
the remaining characters. -/
def pySign : List Char → ℚ × List Char
  | '+' :: r => (1, r)
  | '-' :: r => (-1, r)
  | l => (1, l)

/-- Python `float(str)` on the numeric-literal grammar: optional
whitespace, optional sign, mantissa, optional exponent, nothing left over.
The `inf`/`nan` word forms are unreachable from the two call sites below
(their fixed `1e-`/`.` prefixes exclude them) and are not modelled. -/
def pyFloat (s : List Char) : Option ℚ :=
  let l1 := s.dropWhile pyWs
  let l := (l1.reverse.dropWhile pyWs).reverse
  match pySign l with
  | (sg, body) =>
    match parseUnsigned body with
    | some (m, r1) =>
      match parseExp r1 with
      | some (e, r2) => if r2 = [] then some (sg * m * (10 : ℚ) ^ e) else none
      | none => none
    | none => none

/-- models.py `_interpret_metallicity_keys` loop body (lines 80-91) for a
single extension name: if the name contains `em` (at least two parts after
splitting), unpack exactly two parts and parse `float("1e-" + power)`;
otherwise split on `Z`, unpack exactly two parts and parse
`float("." + value)`.  Both a failed unpack and a failed float conversion
raise `ValueError`. -/
def interpret_met_key (key : List Char) : Except PyErr ℚ :=
  if 2 ≤ (splitOnEm key).length then
    match splitOnEm key with
    | [_, power] =>
      match pyFloat ('1' :: 'e' :: '-' :: power) with
      | some v => .ok v
      | none => .error (.valueError "could not convert string to float")
    | _ => .error (.valueError "too many values to unpack")
  else
    match splitOnChar 'Z' key with
    | [_, value] =>
      match pyFloat ('.' :: value) with
      | some v => .ok v
      | none => .error (.valueError "could not convert string to float")
    | _ => .error (.valueError "not enough values to unpack")

/-- models.py `_interpret_metallicity_keys` (lines 62-93): parse every
extension name after the first, aborting on the first failure. -/
def _interpret_metallicity_keys (metal_keys : List (List Char)) :
    Except PyErr (List ℚ) :=
  metal_keys.mapM interpret_met_key

/-- The decimal-fraction encoding exactly as claim C5 words it: a literal
`Z` followed by one or more digits. -/
def specDecimalForm (key : List Char) : Prop :=
  ∃ ds : List Char, ds ≠ [] ∧ ds.all Char.isDigit = true ∧ key = 'Z' :: ds

/-- The exponent encoding exactly as claim C5 words it: a literal `Zem`
followed by a digit. -/
def specExponentForm (key : List Char) : Prop :=
  ∃ c : Char, c.isDigit = true ∧ key = ['Z', 'e', 'm', c]

/-- The value of a digit run, as Python accumulates it. -/
def digitsToVal (ds : List Char) : ℕ :=
  ds.foldl (fun a c => 10 * a + (c.toNat - 48)) 0


theorem not_ws_of_digit (c : Char) (h : c.isDigit = true) : pyWs c = false := by
  by_contra hw
  rw [Bool.not_eq_false] at hw
  simp only [pyWs, Bool.or_eq_true, beq_iff_eq] at hw
  rcases hw with ((((rfl | rfl) | rfl) | rfl) | rfl) | rfl <;>
    exact absurd h (by decide)

theorem ne_e_of_digit (c : Char) (h : c.isDigit = true) : c ≠ 'e' := by
  intro he
  subst he
  exact absurd h (by decide)

theorem ne_Z_of_digit (c : Char) (h : c.isDigit = true) : c ≠ 'Z' := by
  intro he
  subst he
  exact absurd h (by decide)

theorem dropWhile_all_false {p : Char → Bool} :
    ∀ l : List Char, (∀ c ∈ l, p c = false) → l.dropWhile p = l
  | [], _ => rfl
  | a :: t, h => by
    rw [List.dropWhile_cons, h a (List.mem_cons_self a t)]
    simp

theorem splitOnEm_no_e : ∀ l : List Char, (∀ c ∈ l, c ≠ 'e') → splitOnEm l = [l] := by
  intro l
  induction l with
  | nil => intro _; rfl
  | cons c l' ih =>
    intro h
    cases l' with
    | nil => rfl
    | cons m cs =>
      have hc : c ≠ 'e' := h c (List.mem_cons_self c _)
      have ih' : splitOnEm (m :: cs) = [m :: cs] :=
        ih (fun d hd => h d (List.mem_cons_of_mem c hd))
      show splitOnEm (c :: m :: cs) = [c :: m :: cs]
      unfold splitOnEm
      rw [if_neg (fun hand => hc hand.1), ih']

theorem splitOnChar_none : ∀ (s0 : Char) (l : List Char),
    (∀ c ∈ l, c ≠ s0) → splitOnChar s0 l = [l] := by
  intro s0 l
  induction l with
  | nil => intro _; rfl
  | cons c l' ih =>
    intro h
    have hc : c ≠ s0 := h c (List.mem_cons_self c _)
    have ih' : splitOnChar s0 l' = [l'] :=
      ih (fun d hd => h d (List.mem_cons_of_mem c hd))
    unfold splitOnChar
    rw [if_neg hc, ih']

theorem digitsAux_all : ∀ (ds : List Char) (acc n : ℕ), ds.all Char.isDigit = true →
    digitsAux ds acc n =
      (ds.foldl (fun a c => 10 * a + (c.toNat - 48)) acc, n + ds.length, []) := by
  intro ds
  induction ds with
  | nil => intro acc n _; rfl
  | cons c cs ih =>
    intro acc n h
    rw [List.all_cons, Bool.and_eq_true] at h
    show (if c.isDigit = true then digitsAux cs (10 * acc + (c.toNat - 48)) (n + 1)
      else if c = '_' ∧ headIsDigit cs = true then digitsAux cs acc n
      else (acc, n, c :: cs)) = _
    rw [if_pos h.1, ih _ _ h.2]
    simp only [List.foldl_cons, List.length_cons]
    have harith : n + 1 + cs.length = n + (cs.length + 1) := by omega
    rw [harith]

theorem parseDigits_all (ds : List Char) (h1 : ds ≠ []) (h2 : ds.all Char.isDigit = true) :
    parseDigits ds = some (digitsToVal ds, ds.length, []) := by
  cases ds with
  | nil => exact absurd rfl h1
  | cons d ds' =>
    rw [List.all_cons, Bool.and_eq_true] at h2
    show (if d.isDigit = true then some (digitsAux ds' (d.toNat - 48) 1) else none) = _
    rw [if_pos h2.1, digitsAux_all ds' _ _ h2.2]
    have hv : List.foldl (fun a c => 10 * a + (c.toNat - 48)) (d.toNat - 48) ds' =
        digitsToVal (d :: ds') := by
      simp only [digitsToVal, List.foldl_cons]
      have h0 : 10 * 0 + (d.toNat - 48) = d.toNat - 48 := by omega
      rw [h0]
    have hl : 1 + ds'.length = (d :: ds').length := by
      simp only [List.length_cons]
      omega
    rw [hv, hl]

theorem pyFloat_eq_of (s body r1 : List Char) (sg m : ℚ) (e : ℤ)
    (hws1 : s.dropWhile pyWs = s)
    (hws2 : s.reverse.dropWhile pyWs = s.reverse)
    (hsg : pySign s = (sg, body))
    (hm : parseUnsigned body = some (m, r1))
    (he : parseExp r1 = some (e, [])) :
    pyFloat s = some (sg * m * (10 : ℚ) ^ e) := by
  unfold pyFloat
  simp only [hws1, hws2, List.reverse_reverse, hsg, hm, he]
  simp

theorem pyFloat_dot_digits (ds : List Char) (h1 : ds ≠ [])
    (h2 : ds.all Char.isDigit = true) :
    pyFloat ('.' :: ds) = some ((digitsToVal ds : ℚ) / 10 ^ ds.length) := by
  have hdig : ∀ c ∈ ds, c.isDigit = true := by
    rw [List.all_eq_true] at h2
    exact h2
  have hws1 : ('.' :: ds).dropWhile pyWs = '.' :: ds := by
    have hdot : pyWs '.' = false := by decide
    rw [List.dropWhile_cons, hdot]
    simp
  have hws2 : ('.' :: ds).reverse.dropWhile pyWs = ('.' :: ds).reverse := by
    apply dropWhile_all_false
    intro c hc
    rw [List.mem_reverse] at hc
    rcases List.mem_cons.1 hc with rfl | hc
    · decide
    · exact not_ws_of_digit c (hdig c hc)
  have hpu : parseUnsigned ('.' :: ds) =
      some ((digitsToVal ds : ℚ) / 10 ^ ds.length, []) := by
    have hpu0 : parseUnsigned ('.' :: ds) = (match parseDigits ds with
        | some (fp, fn, rest3) => some ((fp : ℚ) / 10 ^ fn, rest3)
        | none => none) := rfl
    rw [hpu0, parseDigits_all ds h1 h2]
  have := pyFloat_eq_of ('.' :: ds) ('.' :: ds) [] 1
    ((digitsToVal ds : ℚ) / 10 ^ ds.length) 0 hws1 hws2 rfl hpu rfl
  rw [this]
  norm_num

theorem pyFloat_exp_digits (ds : List Char) (h1 : ds ≠ [])
    (h2 : ds.all Char.isDigit = true) :
    pyFloat ('1' :: 'e' :: '-' :: ds) = some ((1 : ℚ) / 10 ^ digitsToVal ds) := by
  have hdig : ∀ c ∈ ds, c.isDigit = true := List.all_eq_true.1 h2
  have hws1 : ('1' :: 'e' :: '-' :: ds).dropWhile pyWs = '1' :: 'e' :: '-' :: ds := by
    have hone : pyWs '1' = false := by decide
    rw [List.dropWhile_cons, hone]
    simp
  have hws2 : ('1' :: 'e' :: '-' :: ds).reverse.dropWhile pyWs =
      ('1' :: 'e' :: '-' :: ds).reverse := by
    apply dropWhile_all_false
    intro c hc
    rw [List.mem_reverse] at hc
    rcases List.mem_cons.1 hc with rfl | hc
    · decide
    · rcases List.mem_cons.1 hc with rfl | hc
      · decide
      · rcases List.mem_cons.1 hc with rfl | hc
        · decide
        · exact not_ws_of_digit c (hdig c hc)
  have hm : parseUnsigned ('1' :: 'e' :: '-' :: ds) = some ((1 : ℚ), 'e' :: '-' :: ds) := rfl
  have hpe : parseExp ('e' :: '-' :: ds) = some (-(digitsToVal ds : ℤ), []) := by
    have hpe0 : parseExp ('e' :: '-' :: ds) = (match parseDigits ds with
        | some (v, _, r) => some (-(v : ℤ), r)
        | none => none) := rfl
    rw [hpe0, parseDigits_all ds h1 h2]
  have := pyFloat_eq_of ('1' :: 'e' :: '-' :: ds) ('1' :: 'e' :: '-' :: ds)
    ('e' :: '-' :: ds) 1 1 (-(digitsToVal ds : ℤ)) hws1 hws2 rfl hm hpe
  rw [this]
  rw [zpow_neg, zpow_natCast]
  norm_num

/-- Counterexample to C5: the extension name `Aem3` matches neither of the
two accepted textual encodings of the claim (its first character is not
`Z`), yet metallicity parsing accepts it and returns 10^-3, because the
`em` branch never inspects what precedes the separator. -/
theorem interpret_met_key_cex :
    interpret_met_key ['A', 'e', 'm', '3'] = .ok (1/1000) ∧
    ¬ specDecimalForm ['A', 'e', 'm', '3'] ∧
    ¬ specExponentForm ['A', 'e', 'm', '3'] := by
  have hval : interpret_met_key ['A', 'e', 'm', '3'] = .ok (1/1000) := by
    have hsplit : splitOnEm ['A', 'e', 'm', '3'] = [['A'], ['3']] := rfl
    unfold interpret_met_key
    rw [hsplit, if_pos (by norm_num)]
    show (match pyFloat ['1', 'e', '-', '3'] with
      | some v => Except.ok v
      | none => Except.error (PyErr.valueError "could not convert string to float")) = _
    rw [pyFloat_exp_digits ['3'] (by decide) (by decide)]
    have h3 : digitsToVal ['3'] = 3 := rfl
    rw [h3]
    norm_num
  refine ⟨hval, ?_, ?_⟩
  · rintro ⟨ds, -, -, h⟩
    have hA : 'A' = 'Z' := (List.cons.inj h).1
    exact absurd hA (by decide)
  · rintro ⟨c, -, h⟩
    have hA : 'A' = 'Z' := (List.cons.inj h).1
    exact absurd hA (by decide)

/-- C5 (amended): the parser accepts the two spec encodings with their
stated values — `Z` followed by digits as the decimal fraction 0.digits,
and `Zem` followed by digits as the negative power of ten (multi-digit
exponents included) — but it is strictly more permissive than the claim
states: whenever a name splits around `em` into exactly two parts, the
branch ignores the prefix entirely and returns `float("1e-" + suffix)`
whenever that parses, raising `ValueError` when it does not; a name with
two or more `em` occurrences raises `ValueError` from unpacking; a name
without `em` takes the `Z` branch, returning `float("." + suffix)` when
the name splits around `Z` into exactly two parts and that parses, and
raising `ValueError` on a failed parse or on a split arity other than
two. -/
theorem interpret_met_key_amended :
    (∀ ds : List Char, ds ≠ [] → ds.all Char.isDigit = true →
      interpret_met_key ('Z' :: ds) = .ok ((digitsToVal ds : ℚ) / 10 ^ ds.length)) ∧
    (∀ ds : List Char, ds ≠ [] → ds.all Char.isDigit = true →
      interpret_met_key ('Z' :: 'e' :: 'm' :: ds) =
        .ok ((1 : ℚ) / 10 ^ digitsToVal ds)) ∧
    (∀ key a b : List Char, splitOnEm key = [a, b] →
      (∀ v : ℚ, pyFloat ('1' :: 'e' :: '-' :: b) = some v →
        interpret_met_key key = .ok v) ∧
      (pyFloat ('1' :: 'e' :: '-' :: b) = none →
        ∃ m, interpret_met_key key = .error (.valueError m))) ∧
    (∀ key : List Char, 3 ≤ (splitOnEm key).length →
      ∃ m, interpret_met_key key = .error (.valueError m)) ∧
    (∀ key a b : List Char, (splitOnEm key).length = 1 →
      splitOnChar 'Z' key = [a, b] →
      (∀ v : ℚ, pyFloat ('.' :: b) = some v → interpret_met_key key = .ok v) ∧
      (pyFloat ('.' :: b) = none →
        ∃ m, interpret_met_key key = .error (.valueError m))) ∧
    (∀ key : List Char, (splitOnEm key).length ≤ 1 →
      (splitOnChar 'Z' key).length ≠ 2 →
      ∃ m, interpret_met_key key = .error (.valueError m)) := by
  refine ⟨?_, ?_, ?_, ?_, ?_, ?_⟩
  · intro ds h1 h2
    have hdig : ∀ c ∈ ds, c.isDigit = true := List.all_eq_true.1 h2
    have hnoe : splitOnEm ('Z' :: ds) = ['Z' :: ds] := by
      apply splitOnEm_no_e
      intro c hcm
      rcases List.mem_cons.1 hcm with rfl | hcm
      · decide
      · exact ne_e_of_digit c (hdig c hcm)
    have hz1 : splitOnChar 'Z' ('Z' :: ds) = [] :: splitOnChar 'Z' ds := by
      show (if ('Z' : Char) = 'Z' then [] :: splitOnChar 'Z' ds
        else match splitOnChar 'Z' ds with
          | hd :: t => ('Z' :: hd) :: t
          | [] => [['Z']]) = [] :: splitOnChar 'Z' ds
      rw [if_pos rfl]
    have hsplitZ : splitOnChar 'Z' ('Z' :: ds) = [[], ds] := by
      rw [hz1, splitOnChar_none 'Z' ds (fun c hc => ne_Z_of_digit c (hdig c hc))]
    unfold interpret_met_key
    rw [hnoe, if_neg (by simp), hsplitZ]
    show (match pyFloat ('.' :: ds) with
      | some v => Except.ok v
      | none => Except.error (PyErr.valueError "could not convert string to float")) = _
    rw [pyFloat_dot_digits ds h1 h2]
  · intro ds h1 h2
    have hdig : ∀ c ∈ ds, c.isDigit = true := List.all_eq_true.1 h2
    have hnoe : splitOnEm ds = [ds] :=
      splitOnEm_no_e ds (fun c hc => ne_e_of_digit c (hdig c hc))
    have h0 : splitOnEm ('e' :: 'm' :: ds) = [] :: splitOnEm ds := by
      show (if ('e' : Char) = 'e' ∧ ('m' : Char) = 'm' then [] :: splitOnEm ds
        else match splitOnEm ('m' :: ds) with
          | hd :: t => ('e' :: hd) :: t
          | [] => [['e']]) = [] :: splitOnEm ds
      rw [if_pos ⟨rfl, rfl⟩]
    have hsplit : splitOnEm ('Z' :: 'e' :: 'm' :: ds) = [['Z'], ds] := by
      have houter : splitOnEm ('Z' :: 'e' :: 'm' :: ds) =
          match splitOnEm ('e' :: 'm' :: ds) with
          | hd :: t => ('Z' :: hd) :: t
          | [] => [['Z']] := by
        show (if ('Z' : Char) = 'e' ∧ ('e' : Char) = 'm' then
            [] :: splitOnEm ('m' :: ds)
          else match splitOnEm ('e' :: 'm' :: ds) with
            | hd :: t => ('Z' :: hd) :: t
            | [] => [['Z']]) = _
        rw [if_neg (fun hand => absurd hand.1 (by decide))]
      rw [houter, h0, hnoe]
    unfold interpret_met_key
    rw [hsplit, if_pos (by norm_num)]
    show (match pyFloat ('1' :: 'e' :: '-' :: ds) with
      | some v => Except.ok v
      | none => Except.error (PyErr.valueError "could not convert string to float")) = _
    rw [pyFloat_exp_digits ds h1 h2]
  · intro key a b hs
    have hbranch : interpret_met_key key =
        (match pyFloat ('1' :: 'e' :: '-' :: b) with
        | some v => Except.ok v
        | none =>
          Except.error (PyErr.valueError "could not convert string to float")) := by
      unfold interpret_met_key
      rw [hs, if_pos (by simp)]
    constructor
    · intro v hv
      rw [hbranch, hv]
    · intro hn
      rw [hbranch, hn]
      exact ⟨_, rfl⟩
  · intro key h3
    unfold interpret_met_key
    rw [if_pos (by omega)]
    cases hs : splitOnEm key with
    | nil => exact ⟨_, rfl⟩
    | cons a t =>
      cases t with
      | nil => exact ⟨_, rfl⟩
      | cons b t2 =>
        cases t2 with
        | nil =>
          exact absurd h3 (by rw [hs]; simp)
        | cons c t3 => exact ⟨_, rfl⟩
  · intro key a b h1 hz
    have hbranch : interpret_met_key key =
        (match pyFloat ('.' :: b) with
        | some v => Except.ok v
        | none =>
          Except.error (PyErr.valueError "could not convert string to float")) := by
      unfold interpret_met_key
      rw [if_neg (by omega), hz]
    constructor
    · intro v hv
      rw [hbranch, hv]
    · intro hn
      rw [hbranch, hn]
      exact ⟨_, rfl⟩
  · intro key hem hz
    unfold interpret_met_key
    rw [if_neg (by omega)]
    cases hzs : splitOnChar 'Z' key with
    | nil => exact ⟨_, rfl⟩
    | cons a t =>
      cases t with
      | nil => exact ⟨_, rfl⟩
      | cons b t2 =>
        cases t2 with
        | nil => exact absurd (by simp [hzs] : (splitOnChar 'Z' key).length = 2) hz
        | cons d t3 => exact ⟨_, rfl⟩

/-- Witness for C5 (amended): the spec example `Z014` parses to 0.014. -/
theorem interpret_met_key_amended_witness :
    interpret_met_key ['Z', '0', '1', '4'] = .ok (7/500) := by
  have h := interpret_met_key_amended.1 ['0', '1', '4'] (by decide) (by decide)
  have hv : digitsToVal ['0', '1', '4'] = 14 := rfl
  have hl : (['0', '1', '4'] : List Char).length = 3 := rfl
  rw [h, hv, hl]
  norm_num

/-- models.py line 344-346: HI/HeI emission coefficients, including the
1e-40 scale factor applied to the literal array. -/
def gamma : List ℚ :=
  [0, 2.11e-4, 5.647, 9.35, 9.847, 10.582, 16.101, 24.681, 26.736,
   24.883, 29.979, 6.519, 8.773, 11.545, 13.585, 6.333, 10.444, 7.023,
   9.361, 7.59, 9.35, 8.32, 9.53, 8.87].map (fun g => g * 1e-40)

/-- models.py lines 347-349: the 24 anchor wavelengths. -/
def nebx : List ℚ :=
  [912, 913, 1300, 1500, 1800, 2200, 2855, 3331, 3421, 3422,
   3642, 3648, 5700, 7000, 8207, 8209, 14583, 14585, 22787, 22789,
   32813, 32815, 44680, 44682]

/-- models.py line 350: the case-B recombination coefficient. -/
def alpha_B : ℚ := 2.6e-13

/-- models.py line 351: the reference ionizing-photon exponent. -/
def Qbase : ℕ := 52

/-- models.py line 353: the sparsely sampled nebular continuum at the
anchor wavelengths, `(2.998e18 * gamma * 10**Qbase) / (alpha_B * nebx**2)`
elementwise. -/
def sparse_nebcont : List ℚ :=
  List.zipWith (fun g wl => (2.998e18 * g * 10 ^ Qbase) / (alpha_B * wl ^ 2)) gamma nebx

/-- `scipy.interpolate.interp1d(xs, ys, fill_value="extrapolate")` for a
strictly increasing abscissa list: piecewise-linear interpolation, with
the first segment extended below the range and the last segment extended
above it. -/
def interp1d : List ℚ → List ℚ → ℚ → ℚ
  | x0 :: x1 :: xs, y0 :: y1 :: ys, t =>
    if xs = [] then y0 + (y1 - y0) * (t - x0) / (x1 - x0)
    else if t ≤ x1 then y0 + (y1 - y0) * (t - x0) / (x1 - x0)
    else interp1d (x1 :: xs) (y1 :: ys) t
  | _, _, _ => 0

/-- The ionization table as the delimited text file is read: a `Z` label
per row plus one column per age label; each row holds its cells aligned
with `ages`. -/
structure IonTable where
  ages : List String
  rows : List (String × List ℚ)

/-- models.py line 386, `ion_table[ion_table['Z'] == met_key][age_key]`:
astropy resolves the column name first — a missing age column raises
`KeyError` (a `LookupError`) — and the boolean row filter keeps the
matching rows' cells; a label matching no row silently yields an empty
column. -/
def ion_lookup (t : IonTable) (met_key age_key : String) : Except PyErr (List ℚ) :=
  match t.ages.findIdx? (fun a => a == age_key) with
  | none => .error (.keyError age_key)
  | some i => .ok ((t.rows.filter (fun r => r.1 == met_key)).map
      (fun r => (r.2.get? i).getD 0))

/-- models.py `nebular_continuum` (lines 356-389): snap the metallicity
and age, interpolate the anchor continuum onto `x` (divided by the solar
luminosity 3.83e33), look up `Q_new`, and rescale by
`10**(Q_new - Qbase + ampl)` under numpy broadcasting.  `theta` unpacks to
`(logt, logZ, ebv, ampl)`, written here with projections; the grid
dictionaries are the module globals, passed explicitly; `none`-valued
snapping (empty dictionary, where Python `min` raises) maps to
`ValueError`. -/
noncomputable def nebular_continuum (metal_dict age_dict : List (String × ℚ))
    (x : List ℚ) (theta : ℚ × ℚ × ℚ × ℚ) (ion_table : IonTable) :
    Except PyErr (List ℝ) :=
  match _nearest_metallicity metal_dict ((theta.2.1 : ℚ) : ℝ),
      _nearest_age age_dict theta.1 with
  | some (met_key, _), some (age_key, _) =>
    let interp_nebcont : List ℚ :=
      x.map (fun w => interp1d nebx sparse_nebcont w / 3.83e33)
    match ion_lookup ion_table met_key age_key with
    | .error e => .error e
    | .ok Q_new =>
      broadcastMul (interp_nebcont.map (fun q : ℚ => (q : ℝ)))
        (Q_new.map (fun q : ℚ => (10 : ℝ) ^ ((q - (Qbase : ℚ) + theta.2.2.2 : ℚ) : ℝ)))
  | _, _ => .error (.valueError "min arg is an empty sequence")

theorem broadcastMul_singleton (a : List ℝ) (s : ℝ) :
    broadcastMul a [s] = .ok (a.map (fun u => u * s)) := by
  unfold broadcastMul
  by_cases hl : a.length = ([s] : List ℝ).length
  · rw [if_pos hl]
    simp only [List.length_singleton] at hl
    cases a with
    | nil => simp at hl
    | cons v rest =>
      cases rest with
      | nil => rfl
      | cons w rest2 => simp at hl
  · rw [if_neg hl]
    cases a with
    | nil => rfl
    | cons v rest =>
      cases rest with
      | nil => rfl
      | cons w rest2 => rfl

theorem broadcastMul_nil_fail (a : List ℝ) (h : 2 ≤ a.length) :
    broadcastMul a [] =
      .error (.valueError "operands could not be broadcast together") := by
  unfold broadcastMul
  cases a with
  | nil => simp at h
  | cons v rest =>
    cases rest with
    | nil => simp at h
    | cons w rest2 =>
      rw [if_neg (by simp)]

theorem findIdx_none_of_not_mem (l : List String) (k : String) (h : k ∉ l) :
    l.findIdx? (fun a => a == k) = none := by
  induction l with
  | nil => rfl
  | cons a t ih =>
    rw [List.findIdx?_cons]
    have ha : (a == k) = false := by
      rw [beq_eq_false_iff_ne]
      exact fun he => h (he ▸ List.mem_cons_self a t)
    rw [ha]
    simp [ih (fun hmem => h (List.mem_cons_of_mem a hmem))]

/-- C4 (amended): with nonempty grid dictionaries, `nebular_continuum`
snaps the metallicity and age; when the ionization lookup yields exactly
one row, the result rescales the interpolated anchor curve by
`10^(Q_actual - 52 + log_amplitude)`; a snapped age label missing from the
table columns fails with `KeyError` (a `LookupError`); but a snapped
metallicity label matching no row does NOT raise a `LookupError` — the
lookup silently yields an empty array and the final rescaling fails with a
numpy broadcast `ValueError` (whenever the wavelength array has at least
two bins). -/
theorem nebular_continuum_amended (metal_dict age_dict : List (String × ℚ))
    (x : List ℚ) (theta : ℚ × ℚ × ℚ × ℚ) (t : IonTable)
    (hm : metal_dict ≠ []) (ha : age_dict ≠ []) :
    ∃ mk ak : String × ℚ,
      _nearest_metallicity metal_dict ((theta.2.1 : ℚ) : ℝ) = some mk ∧
      _nearest_age age_dict theta.1 = some ak ∧
      (∀ q : ℚ, ion_lookup t mk.1 ak.1 = .ok [q] →
        nebular_continuum metal_dict age_dict x theta t =
          .ok (x.map (fun w => ((interp1d nebx sparse_nebcont w / 3.83e33 : ℚ) : ℝ) *
            (10 : ℝ) ^ ((q - (Qbase : ℚ) + theta.2.2.2 : ℚ) : ℝ)))) ∧
      (ak.1 ∉ t.ages →
        nebular_continuum metal_dict age_dict x theta t = .error (.keyError ak.1)) ∧
      (ion_lookup t mk.1 ak.1 = .ok [] → 2 ≤ x.length →
        nebular_continuum metal_dict age_dict x theta t =
          .error (.valueError "operands could not be broadcast together")) := by
  obtain ⟨mk, hmk⟩ : ∃ mk, _nearest_metallicity metal_dict ((theta.2.1 : ℚ) : ℝ) = some mk :=
    minByFirst_isSome _ metal_dict hm
  obtain ⟨ak, hak⟩ : ∃ ak, _nearest_age age_dict theta.1 = some ak :=
    minByFirst_isSome _ age_dict ha
  obtain ⟨mk1, mk2⟩ := mk
  obtain ⟨ak1, ak2⟩ := ak
  have hunf : nebular_continuum metal_dict age_dict x theta t =
      (match ion_lookup t mk1 ak1 with
      | .error e => .error e
      | .ok Q_new =>
        broadcastMul
          ((x.map (fun w => interp1d nebx sparse_nebcont w / 3.83e33)).map
            (fun q : ℚ => (q : ℝ)))
          (Q_new.map
            (fun q : ℚ => (10 : ℝ) ^ ((q - (Qbase : ℚ) + theta.2.2.2 : ℚ) : ℝ)))) := by
    unfold nebular_continuum
    rw [hmk, hak]
  refine ⟨(mk1, mk2), (ak1, ak2), hmk, hak, ?_, ?_, ?_⟩
  · intro q hq
    have hq' : ion_lookup t mk1 ak1 = .ok [q] := hq
    rw [hunf, hq']
    show broadcastMul
        ((x.map (fun w => interp1d nebx sparse_nebcont w / 3.83e33)).map
          (fun q : ℚ => (q : ℝ)))
        [(10 : ℝ) ^ ((q - (Qbase : ℚ) + theta.2.2.2 : ℚ) : ℝ)] = _
    rw [broadcastMul_singleton]
    simp [List.map_map, Function.comp]
  · intro hnotin
    have hnotin' : ak1 ∉ t.ages := hnotin
    have hion : ion_lookup t mk1 ak1 = .error (.keyError ak1) := by
      unfold ion_lookup
      rw [findIdx_none_of_not_mem t.ages ak1 hnotin']
    rw [hunf, hion]
  · intro hq hx2
    have hq' : ion_lookup t mk1 ak1 = .ok [] := hq
    rw [hunf, hq']
    show broadcastMul
        ((x.map (fun w => interp1d nebx sparse_nebcont w / 3.83e33)).map
          (fun q : ℚ => (q : ℝ))) [] = _
    apply broadcastMul_nil_fail
    simp only [List.length_map]
    exact hx2

/-- Counterexample to C4: a concrete ionization table whose age column is
present but whose rows lack the snapped metallicity label.  The
(metallicity, age) combination is absent from the table, yet the call
fails with a broadcast `ValueError` — not with a `LookupError` as the
claim states. -/
theorem nebular_continuum_cex :
    nebular_continuum [("Z1", 1)] [("6.0", 6)] [1000, 2000] (6, 0, 1, 2)
      ⟨["6.0"], [("Z2", [50])]⟩ =
      .error (.valueError "operands could not be broadcast together") ∧
    (PyErr.valueError "operands could not be broadcast together").isLookupError
      = false ∧
    _nearest_metallicity [("Z1", 1)] ((0 : ℚ) : ℝ) = some ("Z1", 1) ∧
    _nearest_age [("6.0", 6)] 6 = some ("6.0", 6) ∧
    ("6.0" ∈ (⟨["6.0"], [("Z2", [50])]⟩ : IonTable).ages) ∧
    (∀ r ∈ (⟨["6.0"], [("Z2", [50])]⟩ : IonTable).rows, r.1 ≠ "Z1") := by
  refine ⟨rfl, rfl, rfl, rfl, by simp, by simp⟩

/-- Witness for C4 (amended) at concrete singleton grids, a two-bin
wavelength array and a table holding the snapped combination. -/
theorem nebular_continuum_amended_witness :
    ∃ mk ak : String × ℚ,
      _nearest_metallicity [("Z1", 1)]
          ((((6 : ℚ), (0 : ℚ), (1 : ℚ), (2 : ℚ)).2.1 : ℚ) : ℝ) = some mk ∧
      _nearest_age [("6.0", 6)] ((6 : ℚ), (0 : ℚ), (1 : ℚ), (2 : ℚ)).1 = some ak ∧
      (∀ q : ℚ, ion_lookup ⟨["6.0"], [("Z1", [50])]⟩ mk.1 ak.1 = .ok [q] →
        nebular_continuum [("Z1", 1)] [("6.0", 6)] [1000, 2000]
            ((6 : ℚ), (0 : ℚ), (1 : ℚ), (2 : ℚ)) ⟨["6.0"], [("Z1", [50])]⟩ =
          .ok ([1000, 2000].map
            (fun w => ((interp1d nebx sparse_nebcont w / 3.83e33 : ℚ) : ℝ) *
              (10 : ℝ) ^ ((q - (Qbase : ℚ) +
                ((6 : ℚ), (0 : ℚ), (1 : ℚ), (2 : ℚ)).2.2.2 : ℚ) : ℝ)))) ∧
      (ak.1 ∉ (⟨["6.0"], [("Z1", [50])]⟩ : IonTable).ages →
        nebular_continuum [("Z1", 1)] [("6.0", 6)] [1000, 2000]
            ((6 : ℚ), (0 : ℚ), (1 : ℚ), (2 : ℚ)) ⟨["6.0"], [("Z1", [50])]⟩ =
          .error (.keyError ak.1)) ∧
      (ion_lookup ⟨["6.0"], [("Z1", [50])]⟩ mk.1 ak.1 = .ok [] →
        2 ≤ ([1000, 2000] : List ℚ).length →
        nebular_continuum [("Z1", 1)] [("6.0", 6)] [1000, 2000]
            ((6 : ℚ), (0 : ℚ), (1 : ℚ), (2 : ℚ)) ⟨["6.0"], [("Z1", [50])]⟩ =
          .error (.valueError "operands could not be broadcast together")) :=
  nebular_continuum_amended [("Z1", 1)] [("6.0", 6)] [1000, 2000]
    ((6 : ℚ), (0 : ℚ), (1 : ℚ), (2 : ℚ)) ⟨["6.0"], [("Z1", [50])]⟩ (by simp) (by simp)
